import Mathlib

set_option maxHeartbeats 1000000

/- Shallow embedding of the alog package (alog.go): an ordered-metadata
store (`Meta`) and a prefix-composing logger (`Log`).  Go `interface{}`
values stored in the metadata are modelled by `Value`, covering the
string and integer payloads the package and its tests use.  The `fmt`
package's behavior on the verbs the package relies on (`%s`, `%d`,
`%v`/`%+v` on strings and ints, `%%`) is modelled by `goSprint`,
`goSprintf` and `goSprintln`.  A Go runtime fault (slice index out of
range) is modelled by `Option`: `none` means the operation panics. -/

inductive Value where
  | VStr : String → Value
  | VInt : Int → Value
deriving DecidableEq, Repr

/-- Rendering of a `Value` under fmt's `%v`/`%+v` default verb (used by
`Meta.format` and by `fmt.Sprint`): strings print bare, ints in decimal. -/
def renderV : Value → String
  | .VStr s => s
  | .VInt n => toString n

def isStringV : Value → Bool
  | .VStr _ => true
  | .VInt _ => false

/-- Go type name of a stored value, as printed inside fmt error strings. -/
def typeStr : Value → String
  | .VStr _ => "string"
  | .VInt _ => "int"

/-- fmt's rendering of superfluous operands: `Sprintf("x", extra...)`
appends `%!(EXTRA type=value, ...)`. -/
def extraStr : List Value → String
  | [] => ""
  | args => "%!(EXTRA " ++ String.intercalate ", " (args.map (fun a => typeStr a ++ "=" ++ renderV a)) ++ ")"

/-- fmt's `%s` verb applied to one operand. -/
def verbS : Value → String
  | .VStr s => s
  | .VInt n => "%!s(int=" ++ toString n ++ ")"

/-- fmt's `%d` verb applied to one operand. -/
def verbD : Value → String
  | .VInt n => toString n
  | .VStr s => "%!d(string=" ++ s ++ ")"

/-- Core loop of fmt.Sprintf over the format string's characters: `%s`,
`%d` and `%%` are interpreted; any other verb character (never produced
by this package's format strings) consumes an operand and prints an fmt
error string; leftover operands are appended via `extraStr`.  Width,
precision and flags are not modelled (the package uses none). -/
def sprintfAux : List Char → List Value → String
  | [], args => extraStr args
  | c :: rest, args =>
    if c = '%' then
      match rest, args with
      | [], args2 => "%!(NOVERB)" ++ extraStr args2
      | d :: rest2, args2 =>
        if d = '%' then "%" ++ sprintfAux rest2 args2
        else if d = 's' then
          match args2 with
          | [] => "%!s(MISSING)" ++ sprintfAux rest2 []
          | a :: as => verbS a ++ sprintfAux rest2 as
        else if d = 'd' then
          match args2 with
          | [] => "%!d(MISSING)" ++ sprintfAux rest2 []
          | a :: as => verbD a ++ sprintfAux rest2 as
        else
          match args2 with
          | [] => "%!" ++ String.singleton d ++ "(MISSING)" ++ sprintfAux rest2 []
          | a :: as => "%!" ++ String.singleton d ++ "(" ++ typeStr a ++ "=" ++ renderV a ++ ")" ++ sprintfAux rest2 as
    else String.singleton c ++ sprintfAux rest args

/-- Model of fmt.Sprintf, restricted to the verbs this package can emit. -/
def goSprintf (f : String) (v : List Value) : String :=
  sprintfAux f.data v

/-- Model of fmt.Sprint: operands are concatenated, and a space is
inserted between two adjacent operands only when neither is a string. -/
def goSprint : List Value → String
  | [] => ""
  | [a] => renderV a
  | a :: b :: rest =>
    renderV a ++ (if isStringV a || isStringV b then "" else " ") ++ goSprint (b :: rest)

/-- Model of fmt.Sprintln: operands separated by single spaces, with a
newline appended. -/
def goSprintln (v : List Value) : String :=
  String.intercalate " " (v.map renderV) ++ "\n"

/-- One entry of the ordered metadata store (alog.go `MetaEntry`): the
stored value and the order number fixed at first insertion. -/
structure MetaEntry where
  value : Value
  order : Nat
deriving DecidableEq, Repr

/-- Contents of the Go map `Meta.entries` (`map[string]MetaEntry`),
modelled as an association list with one cell per key.  The list order is
a mere representation: `Meta.formatWith` takes the map's iteration
sequence as an explicit argument because Go map iteration order is
unspecified. -/
abbrev Entries := List (String × MetaEntry)

/-- Go map read `m.entries[k]` together with its ok-flag. -/
def lookupEntry (es : Entries) (k : String) : Option MetaEntry :=
  (es.find? (fun p => p.1 == k)).map (fun p => p.2)

/-- alog.go `Meta.get`: the stored value, or `none` (Go `nil`) if absent. -/
def Meta.get (es : Entries) (k : String) : Option Value :=
  (lookupEntry es k).map (fun e => e.value)

/-- alog.go `Meta.set`: overwriting keeps the entry's order and replaces
only the value; a new key is stored with order = current size of the map.
(The lazy `make` of a nil map is invisible at this level: a nil map and
an empty map behave identically.) -/
def Meta.set (es : Entries) (k : String) (v : Value) : Entries :=
  match lookupEntry es k with
  | some e => es.map (fun p => if p.1 = k then (k, MetaEntry.mk v e.order) else p)
  | none => es ++ [(k, MetaEntry.mk v es.length)]

/-- alog.go `Meta.del`: Go `delete(m.entries, k)`. -/
def Meta.del (es : Entries) (k : String) : Entries :=
  es.filter (fun p => p.1 != k)

/-- The write loop of alog.go `Meta.format`: `pts[vi.order] = "k=v"` for
each cell in map-iteration order; an order number not below `len(pts)`
is a Go "index out of range" runtime panic, modelled as `none`. -/
def fillSlots : List String → List (String × MetaEntry) → Option (List String)
  | pts, [] => some pts
  | pts, p :: rest =>
    if p.2.order < pts.length then
      fillSlots (pts.set p.2.order (p.1 ++ "=" ++ renderV p.2.value)) rest
    else none

/-- alog.go `Meta.format`, with the Go map's iteration sequence `iter`
(a permutation of the map's cells) made explicit.  An empty map yields
`""` without applying the wrapper; otherwise each cell is rendered as
`"key=value"` into the slot indexed by its order, the slots are joined
with `delim`, and the joined string is substituted into the wrapper via
fmt.Sprintf unless the wrapper is empty. -/
def Meta.formatWith (es : Entries) (delim wrap : String) (iter : List (String × MetaEntry)) : Option String :=
  if es.length = 0 then some ""
  else
    (fillSlots (List.replicate es.length "") iter).map (fun pts =>
      if wrap = "" then String.intercalate delim pts
      else goSprintf wrap [Value.VStr (String.intercalate delim pts)])

/-- alog.go `Meta.format` with the canonical iteration sequence (the
cells in first-insertion order); a theorem below shows the choice of
iteration sequence is irrelevant whenever order numbers are distinct. -/
def Meta.format (es : Entries) (delim wrap : String) : Option String :=
  Meta.formatWith es delim wrap es

/-- The copy loop of alog.go `Meta.copy`: every cell of the source map is
copied, one by one, into a freshly allocated map. -/
def copyEntries (es : Entries) : Entries :=
  es.foldl (fun acc p => acc ++ [p]) []

/-- The metadata store built by a sequence of `set` calls on an initially
empty store.  Every store reachable through the logger API (which never
calls `del`) arises this way. -/
def mkMeta (ps : List (String × Value)) : Entries :=
  ps.foldl (fun es p => Meta.set es p.1 p.2) []

/-- Well-formedness of a store's order numbers: pairwise distinct and all
below the number of entries.  Every store built by `set` alone satisfies
this; `Meta.del` can break the bound. -/
abbrev Meta.WF (es : Entries) : Prop :=
  (es.map (fun p => p.2.order)).Nodup ∧ ∀ p ∈ es, p.2.order < es.length

/-- Modelled from the spec's words on `format` (§4.1): renders each entry
as `"key=value"`, orders the rendered strings by each entry's stored
order, joins with the delimiter, then substitutes into the wrapper; an
empty store yields the empty string with the wrapper unapplied.  For a
store whose order numbers are exactly `0..n-1`, the list sorted by stored
order is the list whose `i`-th element is the entry with order `i`. -/
def Meta.specFormat (es : Entries) (delim wrap : String) : String :=
  if es.length = 0 then ""
  else
    if wrap = "" then
      String.intercalate delim ((List.range es.length).map (fun i =>
        match es.find? (fun p => p.2.order == i) with
        | some p => p.1 ++ "=" ++ renderV p.2.value
        | none => ""))
    else
      goSprintf wrap [Value.VStr (String.intercalate delim ((List.range es.length).map (fun i =>
        match es.find? (fun p => p.2.order == i) with
        | some p => p.1 ++ "=" ++ renderV p.2.value
        | none => "")))]

/-- A tiny heap of metadata stores: Go `*Meta` references are numbers and
allocation returns a fresh reference.  It makes "shares no mutable state"
statable for `Meta.copy`. -/
structure Heap where
  store : Nat → Option Entries
  next : Nat

/-- alog.go `Meta.copy`: shared-lock read of the source's cells, copied
one by one into a newly allocated map behind a fresh reference carrying a
fresh lock. -/
def Heap.copyMeta (σ : Heap) (r : Nat) : Nat × Heap :=
  (σ.next,
   Heap.mk (fun i => if i = σ.next then some (copyEntries ((σ.store r).getD [])) else σ.store i)
     (σ.next + 1))

/-- `Meta.set` performed through a reference: only the addressed store
changes. -/
def Heap.setMeta (σ : Heap) (r : Nat) (k : String) (v : Value) : Heap :=
  Heap.mk (fun i => if i = r then (σ.store i).map (fun es => Meta.set es k v) else σ.store i) σ.next

/-- `Meta.del` performed through a reference: only the addressed store
changes. -/
def Heap.delMeta (σ : Heap) (r : Nat) (k : String) : Heap :=
  Heap.mk (fun i => if i = r then (σ.store i).map (fun es => Meta.del es k) else σ.store i) σ.next

/-- The call depth baked into alog.go (`defaultCalldepth`). -/
def defaultCalldepth : Nat := 3

/-- Flags the standard log package reports via `log.Flags()` in its
default configuration (`log.LstdFlags = Ldate | Ltime`). -/
def logStdFlags : Nat := 3

/-- alog.go `Log`: the flags of the embedded standard logger, the owned
metadata store (held by value: copies are deep), the output writer
(identified by a number), and the call depth passed to `Output`. -/
structure Log where
  flags : Nat
  meta : Entries
  out : Nat
  calldepth : Nat
deriving DecidableEq, Repr

/-- alog.go `newAdvanced(out, flags, calldepth)`. -/
def newAdvanced (out flags calldepth : Nat) : Log :=
  Log.mk flags [] out calldepth

/-- alog.go `New(out)`: default flags and the default call depth. -/
def Log.new (out : Nat) : Log :=
  newAdvanced out logStdFlags defaultCalldepth

/-- The single-quote character, written by code point to keep the source
free of quote literals. -/
def squote : String :=
  String.singleton (Char.ofNat 39)

/-- alog.go `Log.Copy` (a nil receiver is modelled as `none`): nil yields
nil; otherwise a fresh logger with the same writer and current flags, a
deep copy of the metadata, and the default call depth. -/
def Log.Copy : Option Log → Option Log
  | none => none
  | some a => some (Log.mk a.flags (copyEntries a.meta) a.out defaultCalldepth)

/-- alog.go `Log.Set`: nil yields nil; otherwise the logger's own
metadata is updated in place and the same logger is returned. -/
def Log.Set : Option Log → String → Value → Option Log
  | none, _, _ => none
  | some a, k, v => some (Log.mk a.flags (Meta.set a.meta k v) a.out a.calldepth)

/-- alog.go `Log.SetError`: `Set("error", fmt.Sprintf("'%s'", err))`; an
error is modelled by its message string. -/
def Log.SetError (a : Option Log) (err : String) : Option Log :=
  Log.Set a "error" (Value.VStr (squote ++ err ++ squote))

/-- alog.go `Log.With`: `Copy().Set(k, v)`. -/
def Log.With (a : Option Log) (k : String) (v : Value) : Option Log :=
  Log.Set (Log.Copy a) k v

/-- alog.go `Log.WithError`: `Copy().SetError(err)`. -/
def Log.WithError (a : Option Log) (err : String) : Option Log :=
  Log.SetError (Log.Copy a) err

/-- alog.go `Log.prefix`: the empty string on a nil receiver, otherwise
`Meta.format(" ", "[%s]")`; `none` records that format faulted. -/
def Log.prefixOf : Option Log → Option String
  | none => some ""
  | some a => Meta.format a.meta " " "[%s]"

/-- alog.go `Log.addPrefix`: prepend the prefix and one space to the
string when the prefix is nonempty. -/
def Log.addPrefixFmt (a : Option Log) (s : String) : Option String :=
  (Log.prefixOf a).map (fun p => if p = "" then s else p ++ " " ++ s)

/-- alog.go `Log.buildPrefixArgs`: the prefix and a literal space as two
extra leading operands, or no extra operands when the prefix is empty. -/
def Log.buildPrefixArgs (a : Option Log) : Option (List Value) :=
  (Log.prefixOf a).map (fun p => if p = "" then [] else [Value.VStr p, Value.VStr " "])

/-- alog.go `Log.Sprint`: fmt.Sprint of the prefix operands followed by
the caller's operands. -/
def Log.Sprint (a : Option Log) (v : List Value) : Option String :=
  (Log.buildPrefixArgs a).map (fun pa => goSprint (pa ++ v))

/-- alog.go `Log.Sprintf`: fmt.Sprintf after splicing the prefix into the
format template. -/
def Log.Sprintf (a : Option Log) (f : String) (v : List Value) : Option String :=
  (Log.addPrefixFmt a f).map (fun g => goSprintf g v)

/-- alog.go `Log.Sprintln`: fmt.Sprintln of the prefix operands followed
by the caller's operands. -/
def Log.Sprintln (a : Option Log) (v : List Value) : Option String :=
  (Log.buildPrefixArgs a).map (fun pa => goSprintln (pa ++ v))

/-- Where a `Log.output` call lands: the process-wide fallback logger
(nil receiver) or the logger's own writer. -/
inductive Sink where
  | fallbackOut : Sink
  | writerOut : Nat → Sink
deriving DecidableEq, Repr

/-- One emission through alog.go `Log.output`: the sink, the call depth
passed to `Output`, and the message handed to the underlying logger
(which adds the flag-controlled header and the trailing newline). -/
structure Emit where
  sink : Sink
  calldepth : Nat
  msg : String
deriving DecidableEq, Repr

/-- alog.go `Log.output`: a nil receiver writes to the fallback logger at
the default call depth, otherwise to the logger's writer at its own
call depth. -/
def Log.output : Option Log → String → Emit
  | none, s => Emit.mk Sink.fallbackOut defaultCalldepth s
  | some a, s => Emit.mk (Sink.writerOut a.out) a.calldepth s

/-- alog.go `Log.Print`. -/
def Log.Print (a : Option Log) (v : List Value) : Option Emit :=
  (Log.Sprint a v).map (Log.output a)

/-- alog.go `Log.Printf`. -/
def Log.Printf (a : Option Log) (f : String) (v : List Value) : Option Emit :=
  (Log.Sprintf a f v).map (Log.output a)

/-- alog.go `Log.Println`. -/
def Log.Println (a : Option Log) (v : List Value) : Option Emit :=
  (Log.Sprintln a v).map (Log.output a)

/-- alog.go `Log.Panic`: emit the prefixed rendering, then panic carrying
the plain `fmt.Sprint` of the arguments. -/
def Log.Panic (a : Option Log) (v : List Value) : Option (Emit × String) :=
  (Log.Sprint a v).map (fun s => (Log.output a s, goSprint v))

/-- alog.go `Log.Panicf`: emit the prefixed rendering, then panic
carrying the plain `fmt.Sprintf` of the arguments. -/
def Log.Panicf (a : Option Log) (f : String) (v : List Value) : Option (Emit × String) :=
  (Log.Sprintf a f v).map (fun s => (Log.output a s, goSprintf f v))

/-- alog.go `Log.Panicln`: emit the prefixed rendering, then panic
carrying the plain `fmt.Sprintln` of the arguments. -/
def Log.Panicln (a : Option Log) (v : List Value) : Option (Emit × String) :=
  (Log.Sprintln a v).map (fun s => (Log.output a s, goSprintln v))

/-- Reformulation of the write loop of `Meta.format` as a total fold,
used to reason about the loop once all order numbers are known to be in
range. -/
def applySlots (iter : List (String × MetaEntry)) (pts : List String) : List String :=
  iter.foldl (fun acc p => acc.set p.2.order (p.1 ++ "=" ++ renderV p.2.value)) pts

/-- A concrete one-entry store used to instantiate theorems with
hypotheses. -/
def esW : Entries := [("foo", MetaEntry.mk (Value.VStr "bar") 0)]

/-- A concrete heap holding `esW` behind reference 0. -/
def heapW : Heap := Heap.mk (fun i => if i = 0 then some esW else none) 1

/- ## Supporting lemmas: lookups and `Meta.set` -/

theorem lookupEntry_nil (k : String) : lookupEntry ([] : Entries) k = none := rfl

theorem lookupEntry_cons (p : String × MetaEntry) (es : Entries) (k : String) :
    lookupEntry (p :: es) k = if p.1 = k then some p.2 else lookupEntry es k := by
  simp only [lookupEntry, List.find?_cons]
  by_cases h : p.1 = k
  · rw [if_pos h]
    have hb : (p.1 == k) = true := beq_iff_eq.mpr h
    simp [hb]
  · rw [if_neg h]
    have hb : (p.1 == k) = false := beq_eq_false_iff_ne.mpr h
    simp [hb]

theorem lookupEntry_set_self (es : Entries) (k : String) (v : Value) (e : MetaEntry)
    (he : lookupEntry es k = some e) :
    lookupEntry (Meta.set es k v) k = some (MetaEntry.mk v e.order) := by
  unfold Meta.set
  rw [he]
  revert he
  induction es with
  | nil => intro he; rw [lookupEntry_nil] at he; exact absurd he (by simp)
  | cons p es ih =>
    intro he
    rw [lookupEntry_cons] at he
    simp only [List.map_cons]
    by_cases h : p.1 = k
    · rw [if_pos h, lookupEntry_cons]
      simp
    · rw [if_neg h, lookupEntry_cons, if_neg h]
      rw [if_neg h] at he
      exact ih he

theorem lookupEntry_set_new (es : Entries) (k : String) (v : Value)
    (he : lookupEntry es k = none) :
    lookupEntry (Meta.set es k v) k = some (MetaEntry.mk v es.length) := by
  have h2 : es.find? (fun p => p.1 == k) = none := by
    unfold lookupEntry at he
    exact Option.map_eq_none'.mp he
  unfold Meta.set
  rw [he]
  unfold lookupEntry
  rw [List.find?_append, h2]
  simp [List.find?_cons]

theorem lookupEntry_replace_other (es : Entries) (k k2 : String) (c : String × MetaEntry)
    (hne : k2 ≠ k) (hc : c.1 = k) :
    lookupEntry (es.map (fun p => if p.1 = k then c else p)) k2 = lookupEntry es k2 := by
  induction es with
  | nil => rfl
  | cons p es ih =>
    simp only [List.map_cons]
    by_cases h : p.1 = k
    · rw [if_pos h, lookupEntry_cons, lookupEntry_cons]
      have hcne : ¬ (c.1 = k2) := by
        rw [hc]
        exact fun hh => hne hh.symm
      have hpne : ¬ (p.1 = k2) := by
        rw [h]
        exact fun hh => hne hh.symm
      rw [if_neg hcne, if_neg hpne]
      exact ih
    · rw [if_neg h, lookupEntry_cons, lookupEntry_cons]
      by_cases h2 : p.1 = k2
      · rw [if_pos h2, if_pos h2]
      · rw [if_neg h2, if_neg h2]
        exact ih

theorem lookupEntry_set_other (es : Entries) (k k2 : String) (v : Value) (hne : k2 ≠ k) :
    lookupEntry (Meta.set es k v) k2 = lookupEntry es k2 := by
  unfold Meta.set
  cases he : lookupEntry es k with
  | some e => exact lookupEntry_replace_other es k k2 _ hne rfl
  | none =>
    unfold lookupEntry
    rw [List.find?_append]
    have hb : ((k, MetaEntry.mk v es.length).1 == k2) = false :=
      beq_eq_false_iff_ne.mpr (fun hh => hne hh.symm)
    have h1 : List.find? (fun p => p.1 == k2) [(k, MetaEntry.mk v es.length)] = none := by
      simp [List.find?_cons, hb]
    rw [h1]
    simp

theorem lookupEntry_foldl_fresh (ps : List (String × Value)) (es : Entries) (k : String)
    (hk : ∀ p ∈ ps, p.1 ≠ k) :
    lookupEntry (ps.foldl (fun es2 p => Meta.set es2 p.1 p.2) es) k = lookupEntry es k := by
  induction ps generalizing es with
  | nil => rfl
  | cons q ps ih =>
    rw [List.foldl_cons]
    rw [ih _ (fun p hp => hk p (List.mem_cons_of_mem q hp))]
    exact lookupEntry_set_other es q.1 k q.2 (Ne.symm (hk q (List.mem_cons_self q ps)))

theorem length_set_new (es : Entries) (k : String) (v : Value)
    (he : lookupEntry es k = none) :
    (Meta.set es k v).length = es.length + 1 := by
  unfold Meta.set
  rw [he]
  simp

theorem mkMeta_lookup_aux (ps : List (String × Value)) (es : Entries)
    (hnd : (ps.map Prod.fst).Nodup)
    (hfresh : ∀ p ∈ ps, lookupEntry es p.1 = none) :
    ∀ i, (hi : i < ps.length) →
      lookupEntry (ps.foldl (fun es2 p => Meta.set es2 p.1 p.2) es) (ps[i].1)
        = some (MetaEntry.mk (ps[i].2) (es.length + i)) := by
  induction ps generalizing es with
  | nil => intro i hi; exact absurd hi (by simp)
  | cons q ps ih =>
    intro i hi
    rw [List.foldl_cons]
    have hqk : ∀ p ∈ ps, p.1 ≠ q.1 := by
      rw [List.map_cons, List.nodup_cons] at hnd
      intro p hp hh
      exact hnd.1 (hh ▸ List.mem_map_of_mem Prod.fst hp)
    cases i with
    | zero =>
      simp only [List.getElem_cons_zero]
      rw [lookupEntry_foldl_fresh ps _ q.1 hqk]
      rw [lookupEntry_set_new es q.1 q.2 (hfresh q (List.mem_cons_self q ps))]
      simp
    | succ j =>
      simp only [List.getElem_cons_succ]
      have hfresh2 : ∀ p ∈ ps, lookupEntry (Meta.set es q.1 q.2) p.1 = none := by
        intro p hp
        rw [lookupEntry_set_other es q.1 p.1 q.2 (hqk p hp)]
        exact hfresh p (List.mem_cons_of_mem q hp)
      have hnd2 : (ps.map Prod.fst).Nodup := by
        rw [List.map_cons, List.nodup_cons] at hnd
        exact hnd.2
      have hrec := ih (Meta.set es q.1 q.2) hnd2 hfresh2 j (Nat.lt_of_succ_lt_succ hi)
      rw [hrec]
      rw [length_set_new es q.1 q.2 (hfresh q (List.mem_cons_self q ps))]
      have harith : es.length + 1 + j = es.length + (j + 1) := by omega
      rw [harith]

/-- C1: for any sequence of `set(k,v)` calls on an initially empty store
with pairwise-distinct keys (and no deletions), the order number stored
for the `i`-th key is `i`; and on any state, re-setting a present key
replaces only its value, keeps its order number, and leaves every other
key's entry unchanged. -/
theorem c1_set_order (ps : List (String × Value)) (hnd : (ps.map Prod.fst).Nodup)
    (i : Nat) (hi : i < ps.length)
    (es : Entries) (k k2 : String) (v : Value) (e : MetaEntry)
    (he : lookupEntry es k = some e) (hk2 : k2 ≠ k) :
    lookupEntry (mkMeta ps) (ps[i].1) = some (MetaEntry.mk (ps[i].2) i)
    ∧ lookupEntry (Meta.set es k v) k = some (MetaEntry.mk v e.order)
    ∧ lookupEntry (Meta.set es k v) k2 = lookupEntry es k2 := by
  refine ⟨?_, lookupEntry_set_self es k v e he, lookupEntry_set_other es k k2 v hk2⟩
  have hmk := mkMeta_lookup_aux ps [] hnd (fun p _ => rfl) i hi
  simpa [mkMeta] using hmk

/-- C1 witness: a concrete two-key insertion sequence and a concrete
overwrite. -/
theorem c1_set_order_witness :
    lookupEntry (mkMeta [("a", Value.VStr "x"), ("b", Value.VInt 2)]) "b"
      = some (MetaEntry.mk (Value.VInt 2) 1)
    ∧ lookupEntry (Meta.set [("a", MetaEntry.mk (Value.VStr "x") 0)] "a" (Value.VInt 9)) "a"
      = some (MetaEntry.mk (Value.VInt 9) 0)
    ∧ lookupEntry (Meta.set [("a", MetaEntry.mk (Value.VStr "x") 0)] "a" (Value.VInt 9)) "b"
      = lookupEntry [("a", MetaEntry.mk (Value.VStr "x") 0)] "b" :=
  c1_set_order [("a", Value.VStr "x"), ("b", Value.VInt 2)] (by decide) 1 (by decide)
    [("a", MetaEntry.mk (Value.VStr "x") 0)] "a" "b" (Value.VInt 9)
    (MetaEntry.mk (Value.VStr "x") 0) (by decide) (by decide)

/- ## Supporting lemmas: the slot-filling loop of `Meta.format` -/

theorem applySlots_nil (pts : List String) : applySlots [] pts = pts := rfl

theorem applySlots_cons (p : String × MetaEntry) (rest : List (String × MetaEntry))
    (pts : List String) :
    applySlots (p :: rest) pts
      = applySlots rest (pts.set p.2.order (p.1 ++ "=" ++ renderV p.2.value)) := rfl

theorem length_applySlots (iter : List (String × MetaEntry)) (pts : List String) :
    (applySlots iter pts).length = pts.length := by
  induction iter generalizing pts with
  | nil => rfl
  | cons p rest ih =>
    rw [applySlots_cons, ih, List.length_set]

theorem fillSlots_eq_applySlots (iter : List (String × MetaEntry)) (pts : List String)
    (h : ∀ p ∈ iter, p.2.order < pts.length) :
    fillSlots pts iter = some (applySlots iter pts) := by
  induction iter generalizing pts with
  | nil => rfl
  | cons p rest ih =>
    rw [applySlots_cons]
    unfold fillSlots
    rw [if_pos (h p (List.mem_cons_self p rest))]
    exact ih _ (fun q hq => by
      rw [List.length_set]
      exact h q (List.mem_cons_of_mem p hq))

theorem fillSlots_none (iter : List (String × MetaEntry)) (pts : List String)
    (h : ∃ p ∈ iter, ¬ p.2.order < pts.length) :
    fillSlots pts iter = none := by
  induction iter generalizing pts with
  | nil =>
    obtain ⟨p, hp, _⟩ := h
    exact absurd hp (by simp)
  | cons p rest ih =>
    by_cases hp : p.2.order < pts.length
    · unfold fillSlots
      rw [if_pos hp]
      apply ih
      obtain ⟨q, hq, hqo⟩ := h
      refine ⟨q, ?_, by rw [List.length_set]; exact hqo⟩
      cases List.mem_cons.mp hq with
      | inl hqp => exact absurd (by rw [hqp]; exact hp) hqo
      | inr h2 => exact h2
    · unfold fillSlots
      rw [if_neg hp]

theorem order_inj_of_nodup (es : Entries) (hnd : (es.map (fun p => p.2.order)).Nodup) :
    ∀ x ∈ es, ∀ y ∈ es, x.2.order = y.2.order → x = y := by
  have hpw : es.Pairwise (fun a b => a.2.order ≠ b.2.order) := by
    rw [List.Nodup, List.pairwise_map] at hnd
    exact hnd
  have hsymm : Symmetric (fun (a b : String × MetaEntry) => a.2.order ≠ b.2.order) :=
    fun _ _ hab h => hab h.symm
  intro x hx y hy hxy
  by_cases hxyeq : x = y
  · exact hxyeq
  · exact absurd hxy (hpw.forall hsymm hx hy hxyeq)

theorem applySlots_perm (iter1 iter2 : List (String × MetaEntry)) (pts : List String)
    (hperm : iter1.Perm iter2)
    (hinj : ∀ x ∈ iter1, ∀ y ∈ iter1, x.2.order = y.2.order → x = y) :
    applySlots iter1 pts = applySlots iter2 pts := by
  unfold applySlots
  apply hperm.foldl_eq'
  intro x hx y hy z
  by_cases hxy : x.2.order = y.2.order
  · rw [hinj x hx y hy hxy]
  · exact List.set_comm _ _ z hxy

theorem applySlots_getElem? (iter : List (String × MetaEntry)) (pts : List String)
    (hlt : ∀ p ∈ iter, p.2.order < pts.length)
    (hnd : (iter.map (fun p => p.2.order)).Nodup) (i : Nat) :
    (applySlots iter pts)[i]? =
      match iter.find? (fun p => p.2.order == i) with
      | some p => some (p.1 ++ "=" ++ renderV p.2.value)
      | none => pts[i]? := by
  induction iter generalizing pts with
  | nil => rfl
  | cons p rest ih =>
    rw [applySlots_cons]
    have hnd2 : (rest.map (fun p => p.2.order)).Nodup := by
      rw [List.map_cons, List.nodup_cons] at hnd
      exact hnd.2
    have hmem : p.2.order ∉ rest.map (fun q => q.2.order) := by
      rw [List.map_cons, List.nodup_cons] at hnd
      exact hnd.1
    have hlt2 : ∀ q ∈ rest,
        q.2.order < (pts.set p.2.order (p.1 ++ "=" ++ renderV p.2.value)).length := by
      intro q hq
      rw [List.length_set]
      exact hlt q (List.mem_cons_of_mem p hq)
    rw [ih _ hlt2 hnd2]
    rw [List.find?_cons]
    by_cases hpo : p.2.order = i
    · have hb : (p.2.order == i) = true := beq_iff_eq.mpr hpo
      rw [hb]
      have hnone : rest.find? (fun q => q.2.order == i) = none := by
        rw [List.find?_eq_none]
        intro q hq hqb
        exact hmem (by
          rw [hpo, ← beq_iff_eq.mp hqb]
          exact List.mem_map_of_mem (fun r => r.2.order) hq)
      rw [hnone]
      rw [← hpo]
      exact List.getElem?_set_self (hlt p (List.mem_cons_self p rest))
    · have hb : (p.2.order == i) = false := beq_eq_false_iff_ne.mpr hpo
      rw [hb]
      cases hf : rest.find? (fun q => q.2.order == i) with
      | some q => rfl
      | none => exact List.getElem?_set_ne hpo

theorem applySlots_dense (es : Entries)
    (hord : ∀ p ∈ es, p.2.order < es.length)
    (hnd : (es.map (fun p => p.2.order)).Nodup) :
    applySlots es (List.replicate es.length "") =
      (List.range es.length).map (fun i =>
        match es.find? (fun p => p.2.order == i) with
        | some p => p.1 ++ "=" ++ renderV p.2.value
        | none => "") := by
  have hlt : ∀ p ∈ es, p.2.order < (List.replicate es.length "").length := by
    rw [List.length_replicate]
    exact hord
  apply List.ext_getElem?
  intro i
  rw [List.getElem?_map]
  by_cases hi : i < es.length
  · rw [applySlots_getElem? es _ hlt hnd i, List.getElem?_range hi]
    simp only [Option.map_some']
    cases hf : es.find? (fun p => p.2.order == i) with
    | some q => rfl
    | none => rw [List.getElem?_replicate_of_lt hi]
  · have hge : es.length ≤ i := Nat.le_of_not_lt hi
    rw [List.getElem?_eq_none (by rw [length_applySlots, List.length_replicate]; exact hge)]
    rw [List.getElem?_eq_none (by rw [List.length_range]; exact hge)]
    rfl

theorem formatWith_eq_spec (es : Entries) (d w : String)
    (iter : List (String × MetaEntry)) (hwf : Meta.WF es) (hiter : iter.Perm es) :
    Meta.formatWith es d w iter = some (Meta.specFormat es d w) := by
  unfold Meta.formatWith Meta.specFormat
  by_cases hlen : es.length = 0
  · rw [if_pos hlen, if_pos hlen]
  · rw [if_neg hlen, if_neg hlen]
    have hlt : ∀ p ∈ iter, p.2.order < (List.replicate es.length "").length := by
      rw [List.length_replicate]
      intro p hp
      exact hwf.2 p (hiter.subset hp)
    rw [fillSlots_eq_applySlots iter _ hlt]
    have hinj : ∀ x ∈ iter, ∀ y ∈ iter, x.2.order = y.2.order → x = y :=
      fun x hx y hy =>
        order_inj_of_nodup es hwf.1 x (hiter.subset hx) y (hiter.subset hy)
    rw [Option.map_some']
    rw [applySlots_perm iter es _ hiter hinj]
    rw [applySlots_dense es hwf.2 hwf.1]

/-- C2 amended: on every store whose order numbers are pairwise distinct
and all below the entry count (true of every store reachable without
deletions), `format` returns — for every map iteration sequence — the
empty string on the empty store (wrapper unapplied) and otherwise the
entries rendered `"key=value"`, arranged by stored order, joined with the
delimiter, and substituted into the wrapper (unwrapped when the wrapper
is empty); the concrete store {foo: bar (order 0), t: 7 (order 1)} with
delimiter ", " and wrapper "*%s*" yields "*foo=bar, t=7*".  The original
claim's "every store" fails on stores with an order number at or above
the entry count, where `format` faults instead (see the counterexample). -/
theorem c2_format_spec (es : Entries) (d w : String)
    (iter : List (String × MetaEntry)) (hwf : Meta.WF es) (hiter : iter.Perm es) :
    Meta.formatWith es d w iter = some (Meta.specFormat es d w)
    ∧ Meta.formatWith ([] : Entries) d w [] = some ""
    ∧ Meta.format [("foo", MetaEntry.mk (Value.VStr "bar") 0),
        ("t", MetaEntry.mk (Value.VInt 7) 1)] ", " "*%s*" = some "*foo=bar, t=7*" :=
  ⟨formatWith_eq_spec es d w iter hwf hiter, rfl, by decide⟩

/-- C2 witness: the amended theorem applied to the concrete store
{foo: bar (order 0), t: 7 (order 1)} with the canonical iteration order. -/
theorem c2_format_spec_witness :
    Meta.formatWith [("foo", MetaEntry.mk (Value.VStr "bar") 0),
        ("t", MetaEntry.mk (Value.VInt 7) 1)] ", " "*%s*"
        [("foo", MetaEntry.mk (Value.VStr "bar") 0), ("t", MetaEntry.mk (Value.VInt 7) 1)]
      = some (Meta.specFormat [("foo", MetaEntry.mk (Value.VStr "bar") 0),
        ("t", MetaEntry.mk (Value.VInt 7) 1)] ", " "*%s*")
    ∧ Meta.formatWith ([] : Entries) ", " "*%s*" [] = some ""
    ∧ Meta.format [("foo", MetaEntry.mk (Value.VStr "bar") 0),
        ("t", MetaEntry.mk (Value.VInt 7) 1)] ", " "*%s*" = some "*foo=bar, t=7*" :=
  c2_format_spec [("foo", MetaEntry.mk (Value.VStr "bar") 0),
    ("t", MetaEntry.mk (Value.VInt 7) 1)] ", " "*%s*"
    [("foo", MetaEntry.mk (Value.VStr "bar") 0), ("t", MetaEntry.mk (Value.VInt 7) 1)]
    (by decide) (List.Perm.refl _)

/-- C2 counterexample: the store reached by `set foo bar; set t 7;
del foo` has one entry whose order (1) equals the entry count (1); on it
`format` does not return the wrapped join the claim describes — it
faults with an index-out-of-range panic, modelled as `none`. -/
theorem c2_counterexample :
    Meta.format (Meta.del (Meta.set (Meta.set [] "foo" (Value.VStr "bar")) "t"
      (Value.VInt 7)) "foo") ", " "*%s*" = none := by decide

/-- C3 amended: `format` completes without faulting on every store all of
whose order numbers are below the entry count, for every map iteration
sequence, placing each entry at the slot indexed by its order.  The
original claim's "never faults on any state reachable by set and delete"
is false: `delete` can leave a surviving entry whose order is at or above
the entry count, and `format` then faults with an index-out-of-range
panic (see the counterexample). -/
theorem c3_no_fault (es : Entries) (d w : String)
    (iter : List (String × MetaEntry))
    (hord : ∀ p ∈ es, p.2.order < es.length) (hiter : iter.Perm es) :
    ∃ s, Meta.formatWith es d w iter = some s := by
  unfold Meta.formatWith
  by_cases hlen : es.length = 0
  · exact ⟨"", by rw [if_pos hlen]⟩
  · rw [if_neg hlen]
    have hlt : ∀ p ∈ iter, p.2.order < (List.replicate es.length "").length := by
      rw [List.length_replicate]
      intro p hp
      exact hord p (hiter.subset hp)
    rw [fillSlots_eq_applySlots iter _ hlt]
    exact ⟨_, rfl⟩

/-- C3 witness: a concrete in-range store formats without faulting. -/
theorem c3_no_fault_witness :
    ∃ s, Meta.formatWith [("x", MetaEntry.mk (Value.VStr "y") 0)] " " "[%s]"
      [("x", MetaEntry.mk (Value.VStr "y") 0)] = some s :=
  c3_no_fault [("x", MetaEntry.mk (Value.VStr "y") 0)] " " "[%s]"
    [("x", MetaEntry.mk (Value.VStr "y") 0)] (by decide) (List.Perm.refl _)

/-- C3 counterexample: after `set a 1; set b 2; del a` the surviving
entry `b` has order 1 while the store holds 1 entry; `format` on this
reachable store faults (index out of range), modelled as `none`. -/
theorem c3_counterexample :
    Meta.format (Meta.del (Meta.set (Meta.set [] "a" (Value.VInt 1)) "b"
      (Value.VInt 2)) "a") " " "[%s]" = none := by decide

/-- C10 amended: `format` is independent of the map's iteration sequence
on every store whose order numbers are pairwise distinct — in particular
on every store reachable without deletions.  The original claim's "any
two states with the same key-to-(value, order) mapping" fails when two
entries share an order number (reachable via `set a; set b; del a;
set c`): the last entry the map happens to yield wins the shared slot
(see the counterexample). -/
theorem c10_format_deterministic (es : Entries) (d w : String)
    (iter1 iter2 : List (String × MetaEntry))
    (hnd : (es.map (fun p => p.2.order)).Nodup)
    (h1 : iter1.Perm es) (h2 : iter2.Perm es) :
    Meta.formatWith es d w iter1 = Meta.formatWith es d w iter2 := by
  unfold Meta.formatWith
  by_cases hlen : es.length = 0
  · rw [if_pos hlen, if_pos hlen]
  · rw [if_neg hlen, if_neg hlen]
    by_cases hall : ∀ p ∈ es, p.2.order < es.length
    · have hlt1 : ∀ p ∈ iter1, p.2.order < (List.replicate es.length "").length := by
        rw [List.length_replicate]
        intro p hp
        exact hall p (h1.subset hp)
      have hlt2 : ∀ p ∈ iter2, p.2.order < (List.replicate es.length "").length := by
        rw [List.length_replicate]
        intro p hp
        exact hall p (h2.subset hp)
      rw [fillSlots_eq_applySlots iter1 _ hlt1, fillSlots_eq_applySlots iter2 _ hlt2]
      have hinjes := order_inj_of_nodup es hnd
      have hinj1 : ∀ x ∈ iter1, ∀ y ∈ iter1, x.2.order = y.2.order → x = y :=
        fun x hx y hy => hinjes x (h1.subset hx) y (h1.subset hy)
      rw [applySlots_perm iter1 es _ h1 hinj1]
      have hinj2 : ∀ x ∈ iter2, ∀ y ∈ iter2, x.2.order = y.2.order → x = y :=
        fun x hx y hy => hinjes x (h2.subset hx) y (h2.subset hy)
      rw [applySlots_perm iter2 es _ h2 hinj2]
    · have hex : ∃ p ∈ es, ¬ p.2.order < es.length := by
        push_neg at hall
        obtain ⟨p, hp, hge⟩ := hall
        exact ⟨p, hp, Nat.not_lt.mpr hge⟩
      obtain ⟨p, hp, hge⟩ := hex
      have hrep : ¬ p.2.order < (List.replicate es.length ("" : String)).length := by
        rw [List.length_replicate]
        exact hge
      rw [fillSlots_none iter1 _ ⟨p, h1.mem_iff.mpr hp, hrep⟩]
      rw [fillSlots_none iter2 _ ⟨p, h2.mem_iff.mpr hp, hrep⟩]

/-- C10 witness: the amended theorem applied to a concrete two-entry
store and two different iteration sequences. -/
theorem c10_format_deterministic_witness :
    Meta.formatWith [("foo", MetaEntry.mk (Value.VStr "bar") 0),
        ("t", MetaEntry.mk (Value.VInt 7) 1)] " " "[%s]"
        [("foo", MetaEntry.mk (Value.VStr "bar") 0), ("t", MetaEntry.mk (Value.VInt 7) 1)]
      = Meta.formatWith [("foo", MetaEntry.mk (Value.VStr "bar") 0),
        ("t", MetaEntry.mk (Value.VInt 7) 1)] " " "[%s]"
        [("t", MetaEntry.mk (Value.VInt 7) 1), ("foo", MetaEntry.mk (Value.VStr "bar") 0)] :=
  c10_format_deterministic [("foo", MetaEntry.mk (Value.VStr "bar") 0),
    ("t", MetaEntry.mk (Value.VInt 7) 1)] " " "[%s]"
    [("foo", MetaEntry.mk (Value.VStr "bar") 0), ("t", MetaEntry.mk (Value.VInt 7) 1)]
    [("t", MetaEntry.mk (Value.VInt 7) 1), ("foo", MetaEntry.mk (Value.VStr "bar") 0)]
    (by decide) (List.Perm.refl _) (List.Perm.swap _ _ _)

/-- C10 counterexample: after `set a 1; set b 2; del a; set c 3` the
entries `b` and `c` share order 1; yielding them in the two possible
sequences makes `format` return two different strings, so `format` is
not determined by the key-to-(value, order) mapping alone. -/
theorem c10_counterexample :
    Meta.set (Meta.del (Meta.set (Meta.set [] "a" (Value.VInt 1)) "b"
        (Value.VInt 2)) "a") "c" (Value.VInt 3)
      = [("b", MetaEntry.mk (Value.VInt 2) 1), ("c", MetaEntry.mk (Value.VInt 3) 1)]
    ∧ List.Perm [("b", MetaEntry.mk (Value.VInt 2) 1), ("c", MetaEntry.mk (Value.VInt 3) 1)]
        [("c", MetaEntry.mk (Value.VInt 3) 1), ("b", MetaEntry.mk (Value.VInt 2) 1)]
    ∧ Meta.format [("b", MetaEntry.mk (Value.VInt 2) 1),
        ("c", MetaEntry.mk (Value.VInt 3) 1)] " " "" = some " c=3"
    ∧ Meta.format [("c", MetaEntry.mk (Value.VInt 3) 1),
        ("b", MetaEntry.mk (Value.VInt 2) 1)] " " "" = some " b=2" :=
  ⟨by decide, List.Perm.swap _ _ _, by decide, by decide⟩

/- ## C4: copy shares no mutable state with its source -/

theorem foldl_snoc_eq_append (es : Entries) (acc : Entries) :
    es.foldl (fun a p => a ++ [p]) acc = acc ++ es := by
  induction es generalizing acc with
  | nil => simp
  | cons p rest ih =>
    rw [List.foldl_cons, ih]
    simp

theorem copyEntries_id (es : Entries) : copyEntries es = es := by
  unfold copyEntries
  rw [foldl_snoc_eq_append]
  simp

/-- C4: `copy` hands back a fresh reference holding the same entries
(keys, values and orders); a subsequent `set` or `del` through the copy's
reference leaves the original's entries — and hence every value observed
through `get` or `format` — unchanged, and mutating the original leaves
the copy unchanged. -/
theorem c4_copy_independent (σ : Heap) (r : Nat) (es : Entries)
    (k k2 : String) (v : Value) (d w : String)
    (hr : r < σ.next) (hes : σ.store r = some es) :
    (σ.copyMeta r).2.store (σ.copyMeta r).1 = some es
    ∧ (σ.copyMeta r).1 ≠ r
    ∧ ((σ.copyMeta r).2.setMeta (σ.copyMeta r).1 k v).store r = some es
    ∧ ((σ.copyMeta r).2.delMeta (σ.copyMeta r).1 k).store r = some es
    ∧ ((σ.copyMeta r).2.setMeta r k v).store (σ.copyMeta r).1
        = (σ.copyMeta r).2.store (σ.copyMeta r).1
    ∧ ((σ.copyMeta r).2.delMeta r k).store (σ.copyMeta r).1
        = (σ.copyMeta r).2.store (σ.copyMeta r).1
    ∧ Meta.get ((((σ.copyMeta r).2.setMeta (σ.copyMeta r).1 k v).store r).getD []) k2
        = Meta.get es k2
    ∧ Meta.format ((((σ.copyMeta r).2.setMeta (σ.copyMeta r).1 k v).store r).getD []) d w
        = Meta.format es d w := by
  have hne : r ≠ σ.next := Nat.ne_of_lt hr
  have hne2 : σ.next ≠ r := Ne.symm hne
  have h1 : (σ.copyMeta r).2.store (σ.copyMeta r).1 = some es := by
    simp [Heap.copyMeta, hes, copyEntries_id]
  have h3 : ((σ.copyMeta r).2.setMeta (σ.copyMeta r).1 k v).store r = some es := by
    simp [Heap.copyMeta, Heap.setMeta, hes, hne]
  refine ⟨h1, by simpa [Heap.copyMeta] using hne2, h3, ?_, ?_, ?_, ?_, ?_⟩
  · simp [Heap.copyMeta, Heap.delMeta, hes, hne]
  · simp [Heap.copyMeta, Heap.setMeta, hne2]
  · simp [Heap.copyMeta, Heap.delMeta, hne2]
  · rw [h3, Option.getD_some]
  · rw [h3, Option.getD_some]

/-- C4 witness: the theorem applied to the concrete heap `heapW` holding
the store `esW` behind reference 0. -/
theorem c4_copy_independent_witness :
    (heapW.copyMeta 0).2.store (heapW.copyMeta 0).1 = some esW
    ∧ (heapW.copyMeta 0).1 ≠ 0
    ∧ ((heapW.copyMeta 0).2.setMeta (heapW.copyMeta 0).1 "foo" (Value.VStr "baz")).store 0
        = some esW
    ∧ ((heapW.copyMeta 0).2.delMeta (heapW.copyMeta 0).1 "foo").store 0 = some esW
    ∧ ((heapW.copyMeta 0).2.setMeta 0 "foo" (Value.VStr "baz")).store (heapW.copyMeta 0).1
        = (heapW.copyMeta 0).2.store (heapW.copyMeta 0).1
    ∧ ((heapW.copyMeta 0).2.delMeta 0 "foo").store (heapW.copyMeta 0).1
        = (heapW.copyMeta 0).2.store (heapW.copyMeta 0).1
    ∧ Meta.get ((((heapW.copyMeta 0).2.setMeta (heapW.copyMeta 0).1 "foo"
        (Value.VStr "baz")).store 0).getD []) "foo" = Meta.get esW "foo"
    ∧ Meta.format ((((heapW.copyMeta 0).2.setMeta (heapW.copyMeta 0).1 "foo"
        (Value.VStr "baz")).store 0).getD []) " " "[%s]" = Meta.format esW " " "[%s]" :=
  c4_copy_independent heapW 0 esW "foo" "foo" (Value.VStr "baz") " " "[%s]"
    (by decide) rfl

/- ## C5, C9: the nil-receiver contract and Copy's call depth -/

/-- C5: every method invoked on an absent (nil) logger degrades
gracefully: `Copy`, `Set`, `SetError`, `With` and `WithError` return the
absent value; `Sprint`, `Sprintf` and `Sprintln` return exactly the plain
baseline formatting of the arguments with no prefix; `Print`, `Printf`
and `Println` write the plain rendering to the process-wide fallback
output; no method faults; and `Panic`, `Panicf` and `Panicln` still
carry the plain un-prefixed message. -/
theorem c5_nil_safe (k err f : String) (v : Value) (vs : List Value) :
    Log.Copy none = none
    ∧ Log.Set none k v = none
    ∧ Log.SetError none err = none
    ∧ Log.With none k v = none
    ∧ Log.WithError none err = none
    ∧ Log.Sprint none vs = some (goSprint vs)
    ∧ Log.Sprintf none f vs = some (goSprintf f vs)
    ∧ Log.Sprintln none vs = some (goSprintln vs)
    ∧ Log.Print none vs = some (Emit.mk Sink.fallbackOut defaultCalldepth (goSprint vs))
    ∧ Log.Printf none f vs = some (Emit.mk Sink.fallbackOut defaultCalldepth (goSprintf f vs))
    ∧ Log.Println none vs = some (Emit.mk Sink.fallbackOut defaultCalldepth (goSprintln vs))
    ∧ Log.Panic none vs
        = some (Emit.mk Sink.fallbackOut defaultCalldepth (goSprint vs), goSprint vs)
    ∧ Log.Panicf none f vs
        = some (Emit.mk Sink.fallbackOut defaultCalldepth (goSprintf f vs), goSprintf f vs)
    ∧ Log.Panicln none vs
        = some (Emit.mk Sink.fallbackOut defaultCalldepth (goSprintln vs), goSprintln vs) :=
  ⟨rfl, rfl, rfl, rfl, rfl, rfl, rfl, rfl, rfl, rfl, rfl, rfl, rfl, rfl⟩

/-- C9: `Copy` yields a logger whose call depth is reset to the fixed
default 3 even when the source was constructed with a different call
depth, while the writer, the flags and the metadata are preserved. -/
theorem c9_copy_calldepth (out flags cd : Nat) (a : Log) :
    Log.Copy (some (newAdvanced out flags cd))
      = some (Log.mk flags [] out defaultCalldepth)
    ∧ ∃ b, Log.Copy (some a) = some b
        ∧ b.out = a.out ∧ b.flags = a.flags ∧ b.meta = a.meta
        ∧ b.calldepth = defaultCalldepth := by
  refine ⟨rfl, Log.mk a.flags (copyEntries a.meta) a.out defaultCalldepth, rfl, rfl, rfl,
    copyEntries_id a.meta, rfl⟩

/- ## Supporting lemmas: fmt renderings with a variable payload -/

theorem goSprintf_wrapBrackets (s : String) :
    goSprintf "[%s]" [Value.VStr s] = "[" ++ s ++ "]" := rfl

theorem goSprint_prefix_args (p : String) (v : List Value) :
    goSprint (Value.VStr p :: Value.VStr " " :: v) = p ++ " " ++ goSprint v := by
  cases v with
  | nil => simp [goSprint, renderV, isStringV, String.append_assoc]
  | cons b rest => simp [goSprint, renderV, isStringV, String.append_assoc]

theorem bracket_ne_empty (s : String) : ("[" ++ s ++ "]") ≠ "" := by
  intro h
  have h2 := congrArg String.length h
  rw [String.length_append, String.length_append] at h2
  have e1 : ("[" : String).length = 1 := rfl
  have e2 : ("]" : String).length = 1 := rfl
  have e3 : ("" : String).length = 0 := rfl
  rw [e1, e2, e3] at h2
  omega

theorem format_bracket (es : Entries)
    (hord : ∀ p ∈ es, p.2.order < es.length) (hne : es ≠ []) :
    ∃ s, Meta.format es " " "[%s]" = some ("[" ++ s ++ "]") := by
  unfold Meta.format Meta.formatWith
  have hlen : ¬ es.length = 0 := by simpa using hne
  rw [if_neg hlen]
  have hlt : ∀ p ∈ es, p.2.order < (List.replicate es.length "").length := by
    rw [List.length_replicate]
    exact hord
  rw [fillSlots_eq_applySlots es _ hlt]
  refine ⟨String.intercalate " " (applySlots es (List.replicate es.length "")), ?_⟩
  rw [Option.map_some', if_neg (by decide : ¬ ("[%s]" : String) = ""), goSprintf_wrapBrackets]

/- ## C7: Sprint's prefix composition -/

/-- C7: on a non-nil logger with non-empty metadata, `Sprint` returns the
bracketed prefix, exactly one space, then the plain `fmt.Sprint`
rendering of the arguments; with empty metadata it returns the plain
rendering with no prefix segment at all.  (The well-formedness hypothesis
on order numbers holds for every store the logger API can build.) -/
theorem c7_sprint_prefixed (a : Log) (v : List Value) (hwf : Meta.WF a.meta) :
    (a.meta ≠ [] → ∃ p, Log.prefixOf (some a) = some p ∧ p ≠ ""
        ∧ Log.Sprint (some a) v = some (p ++ " " ++ goSprint v))
    ∧ (a.meta = [] → Log.Sprint (some a) v = some (goSprint v)) := by
  constructor
  · intro hne
    obtain ⟨s, hs⟩ := format_bracket a.meta hwf.2 hne
    have hps : Log.prefixOf (some a) = some ("[" ++ s ++ "]") := hs
    refine ⟨"[" ++ s ++ "]", hps, bracket_ne_empty s, ?_⟩
    unfold Log.Sprint Log.buildPrefixArgs
    rw [hps, Option.map_some', Option.map_some', if_neg (bracket_ne_empty s)]
    rw [List.cons_append, List.cons_append, List.nil_append]
    rw [goSprint_prefix_args]
  · intro hemp
    cases a with
    | mk fl me ou cd =>
      replace hemp : me = [] := hemp
      subst hemp
      rfl

/-- C7 witness: a concrete logger with metadata {foo: bar}. -/
theorem c7_sprint_prefixed_witness :
    ((Log.mk 0 esW 0 3).meta ≠ [] → ∃ p, Log.prefixOf (some (Log.mk 0 esW 0 3)) = some p
        ∧ p ≠ ""
        ∧ Log.Sprint (some (Log.mk 0 esW 0 3)) [Value.VStr "test"]
            = some (p ++ " " ++ goSprint [Value.VStr "test"]))
    ∧ ((Log.mk 0 esW 0 3).meta = []
        → Log.Sprint (some (Log.mk 0 esW 0 3)) [Value.VStr "test"]
            = some (goSprint [Value.VStr "test"])) :=
  c7_sprint_prefixed (Log.mk 0 esW 0 3) [Value.VStr "test"] (by decide)

/- ## C6: Panic emits the prefixed line but carries the plain message -/

/-- C6: on a non-nil logger with non-empty (well-formed) metadata,
`Panic`, `Panicf` and `Panicln` first emit the prefix-decorated rendering
through the logger's own writer and then raise a panic whose carried
message is exactly the un-prefixed plain rendering (`fmt.Sprint`,
`fmt.Sprintf`, `fmt.Sprintln` of the arguments respectively). -/
theorem c6_panic_unprefixed (a : Log) (v : List Value) (f : String)
    (hwf : Meta.WF a.meta) (hne : a.meta ≠ []) :
    ∃ p, Log.prefixOf (some a) = some p ∧ p ≠ ""
    ∧ Log.Panic (some a) v
        = some (Emit.mk (Sink.writerOut a.out) a.calldepth (p ++ " " ++ goSprint v),
            goSprint v)
    ∧ Log.Panicf (some a) f v
        = some (Emit.mk (Sink.writerOut a.out) a.calldepth (goSprintf (p ++ " " ++ f) v),
            goSprintf f v)
    ∧ Log.Panicln (some a) v
        = some (Emit.mk (Sink.writerOut a.out) a.calldepth
            (goSprintln (Value.VStr p :: Value.VStr " " :: v)), goSprintln v) := by
  obtain ⟨s, hs⟩ := format_bracket a.meta hwf.2 hne
  have hps : Log.prefixOf (some a) = some ("[" ++ s ++ "]") := hs
  refine ⟨"[" ++ s ++ "]", hps, bracket_ne_empty s, ?_, ?_, ?_⟩
  · unfold Log.Panic Log.Sprint Log.buildPrefixArgs
    rw [hps, Option.map_some', Option.map_some', if_neg (bracket_ne_empty s), Option.map_some']
    rw [List.cons_append, List.cons_append, List.nil_append, goSprint_prefix_args]
    rfl
  · unfold Log.Panicf Log.Sprintf Log.addPrefixFmt
    rw [hps, Option.map_some', if_neg (bracket_ne_empty s), Option.map_some', Option.map_some']
    rfl
  · unfold Log.Panicln Log.Sprintln Log.buildPrefixArgs
    rw [hps, Option.map_some', Option.map_some', if_neg (bracket_ne_empty s), Option.map_some']
    rw [List.cons_append, List.cons_append, List.nil_append]
    rfl

/-- C6 witness: `Panic("xxx")` on a logger with metadata {foo: bar}
emits "[foo=bar] xxx" and panics with exactly "xxx". -/
theorem c6_panic_unprefixed_witness :
    ∃ p, Log.prefixOf (some (Log.mk 0 esW 7 3)) = some p ∧ p ≠ ""
    ∧ Log.Panic (some (Log.mk 0 esW 7 3)) [Value.VStr "xxx"]
        = some (Emit.mk (Sink.writerOut 7) 3 (p ++ " " ++ goSprint [Value.VStr "xxx"]),
            goSprint [Value.VStr "xxx"])
    ∧ Log.Panicf (some (Log.mk 0 esW 7 3)) "xxx" [Value.VStr "xxx"]
        = some (Emit.mk (Sink.writerOut 7) 3
            (goSprintf (p ++ " " ++ "xxx") [Value.VStr "xxx"]),
            goSprintf "xxx" [Value.VStr "xxx"])
    ∧ Log.Panicln (some (Log.mk 0 esW 7 3)) [Value.VStr "xxx"]
        = some (Emit.mk (Sink.writerOut 7) 3
            (goSprintln (Value.VStr p :: Value.VStr " " :: [Value.VStr "xxx"])),
            goSprintln [Value.VStr "xxx"]) :=
  c6_panic_unprefixed (Log.mk 0 esW 7 3) [Value.VStr "xxx"] "xxx" (by decide) (by decide)

/- ## C8: Sprintf splices the prefix into the format template -/

theorem sprintfAux_cons_ne (c : Char) (rest : List Char) (args : List Value)
    (hc : ¬ c = '%') :
    sprintfAux (c :: rest) args = String.singleton c ++ sprintfAux rest args := by
  conv_lhs => unfold sprintfAux
  rw [if_neg hc]

theorem sprintfAux_no_percent (l cs : List Char) (v : List Value)
    (h : '%' ∉ l) :
    sprintfAux (l ++ cs) v = String.mk l ++ sprintfAux cs v := by
  induction l with
  | nil =>
    rw [List.nil_append]
    apply String.ext
    rw [String.data_append]
    rfl
  | cons c l ih =>
    rw [List.cons_append]
    have hc : ¬ c = '%' := by
      intro hh
      exact h (List.mem_cons.mpr (Or.inl hh.symm))
    rw [sprintfAux_cons_ne c (l ++ cs) v hc]
    rw [ih (fun hm => h (List.mem_cons_of_mem c hm))]
    apply String.ext
    simp [String.data_append, String.singleton]

theorem goSprintf_no_percent (p f : String) (v : List Value)
    (h : '%' ∉ p.data) :
    goSprintf (p ++ " " ++ f) v = p ++ " " ++ goSprintf f v := by
  unfold goSprintf
  have hd : (p ++ " " ++ f).data = (p.data ++ [' ']) ++ f.data := by
    rw [String.data_append, String.data_append]
  rw [hd]
  rw [sprintfAux_no_percent (p.data ++ [' ']) f.data v ?hmem]
  · apply String.ext
    rw [String.data_append, String.data_append, String.data_append]
  case hmem =>
    intro hm
    cases List.mem_append.mp hm with
    | inl h1 => exact h h1
    | inr h2 =>
      rw [List.mem_singleton] at h2
      exact absurd h2 (by decide)

/-- C8 amended: `Sprintf` splices the rendered prefix into the format
template before substitution.  On a logger whose prefix contains a `%`
(e.g. metadata value "%s"), the spliced characters are interpreted as
verbs and the result differs from `prefix ++ " " ++ fmt.Sprintf(f, v)`;
for every logger whose prefix is nonempty and contains no `%`, the two
agree.  (The original claim's agreement clause also covered loggers with
an empty prefix; there `Sprintf` returns the plain rendering with no
separating space, so the two differ — see the counterexample.) -/
theorem c8_sprintf_injection (a : Log) (f : String) (v : List Value) (p : String)
    (hp : Log.prefixOf (some a) = some p) (hne : p ≠ "")
    (hnoperc : '%' ∉ p.data) :
    Log.Sprintf (some a) f v = some (p ++ " " ++ goSprintf f v)
    ∧ Log.prefixOf (some (Log.mk 0 [("k", MetaEntry.mk (Value.VStr "%s") 0)] 0 3))
        = some "[k=%s]"
    ∧ Log.Sprintf (some (Log.mk 0 [("k", MetaEntry.mk (Value.VStr "%s") 0)] 0 3))
          "%d" [Value.VInt 5]
        ≠ some ("[k=%s]" ++ " " ++ goSprintf "%d" [Value.VInt 5]) := by
  refine ⟨?_, by decide, by decide⟩
  unfold Log.Sprintf Log.addPrefixFmt
  rw [hp, Option.map_some', if_neg hne, Option.map_some']
  rw [goSprintf_no_percent p f v hnoperc]

/-- C8 witness: a concrete percent-free prefix agrees with the plain
composition, while the concrete "%s"-valued metadata makes Sprintf differ
from it. -/
theorem c8_sprintf_injection_witness :
    Log.Sprintf (some (Log.mk 0 esW 0 3)) "%d" [Value.VInt 5]
      = some ("[foo=bar]" ++ " " ++ goSprintf "%d" [Value.VInt 5])
    ∧ Log.prefixOf (some (Log.mk 0 [("k", MetaEntry.mk (Value.VStr "%s") 0)] 0 3))
        = some "[k=%s]"
    ∧ Log.Sprintf (some (Log.mk 0 [("k", MetaEntry.mk (Value.VStr "%s") 0)] 0 3))
          "%d" [Value.VInt 5]
        ≠ some ("[k=%s]" ++ " " ++ goSprintf "%d" [Value.VInt 5]) :=
  c8_sprintf_injection (Log.mk 0 esW 0 3) "%d" [Value.VInt 5] "[foo=bar]"
    (by decide) (by decide) (by decide)

/-- C8 counterexample: a logger with empty metadata has prefix "", which
contains no percent character, yet `Sprintf` does not equal
`prefix ++ " " ++ fmt.Sprintf(f, v)` there: no separating space is
inserted when the prefix is empty. -/
theorem c8_counterexample :
    Log.prefixOf (some (Log.mk 0 [] 0 3)) = some ""
    ∧ '%' ∉ ("" : String).data
    ∧ Log.Sprintf (some (Log.mk 0 [] 0 3)) "x" []
        ≠ some ("" ++ " " ++ goSprintf "x" []) := by
  refine ⟨rfl, by decide, by decide⟩

/- ## Grounding the well-formedness hypotheses: every store built by
`set` alone (hence every store a logger can own, since the logger API
never deletes) has pairwise-distinct, in-range order numbers. -/

theorem lookupEntry_eq_none_iff (es : Entries) (k : String) :
    lookupEntry es k = none ↔ ∀ p ∈ es, p.1 ≠ k := by
  unfold lookupEntry
  rw [Option.map_eq_none', List.find?_eq_none]
  constructor
  · intro hall p hp
    have := hall p hp
    simpa using this
  · intro hall p hp
    simpa using hall p hp

theorem lookupEntry_unique (es : Entries) (k : String) (e : MetaEntry)
    (hkeys : (es.map Prod.fst).Nodup) (he : lookupEntry es k = some e) :
    ∀ p ∈ es, p.1 = k → p.2 = e := by
  induction es with
  | nil => intro p hp; exact absurd hp (by simp)
  | cons q es ih =>
    rw [lookupEntry_cons] at he
    rw [List.map_cons, List.nodup_cons] at hkeys
    intro p hp hpk
    by_cases hq : q.1 = k
    · rw [if_pos hq] at he
      cases List.mem_cons.mp hp with
      | inl hpq => rw [hpq]; exact Option.some.inj he
      | inr hpes =>
        exact absurd (by rw [hq, ← hpk]; exact List.mem_map_of_mem Prod.fst hpes) hkeys.1
    · rw [if_neg hq] at he
      cases List.mem_cons.mp hp with
      | inl hpq => exact absurd (by rw [← hpq]; exact hpk) hq
      | inr hpes => exact ih hkeys.2 he p hpes hpk

theorem WF_set (es : Entries) (k : String) (v : Value)
    (hkeys : (es.map Prod.fst).Nodup) (hwf : Meta.WF es) :
    ((Meta.set es k v).map Prod.fst).Nodup ∧ Meta.WF (Meta.set es k v) := by
  cases he : lookupEntry es k with
  | none =>
    have hset : Meta.set es k v = es ++ [(k, MetaEntry.mk v es.length)] := by
      unfold Meta.set
      rw [he]
    have hnotin : ∀ p ∈ es, p.1 ≠ k := (lookupEntry_eq_none_iff es k).mp he
    rw [hset]
    refine ⟨?_, ?_, ?_⟩
    · rw [List.map_append]
      have hsing : List.map Prod.fst [(k, MetaEntry.mk v es.length)] = [k] := rfl
      rw [hsing, ← List.concat_eq_append]
      refine List.Nodup.concat ?_ hkeys
      intro hmem
      obtain ⟨p, hp, hpx⟩ := List.mem_map.mp hmem
      exact hnotin p hp hpx
    · rw [List.map_append]
      have hsing : List.map (fun p => p.2.order) [(k, MetaEntry.mk v es.length)]
          = [es.length] := rfl
      rw [hsing, ← List.concat_eq_append]
      refine List.Nodup.concat ?_ hwf.1
      intro hmem
      obtain ⟨p, hp, hpx⟩ := List.mem_map.mp hmem
      have := hwf.2 p hp
      omega
    · intro p hp
      rw [List.length_append]
      cases List.mem_append.mp hp with
      | inl h1 =>
        have := hwf.2 p h1
        simp only [List.length_cons, List.length_nil]
        omega
      | inr h2 =>
        simp only [List.mem_singleton] at h2
        rw [h2]
        simp
  | some e =>
    have hset : Meta.set es k v
        = es.map (fun p => if p.1 = k then (k, MetaEntry.mk v e.order) else p) := by
      unfold Meta.set
      rw [he]
    have hfst : ∀ p ∈ es,
        Prod.fst (if p.1 = k then (k, MetaEntry.mk v e.order) else p) = Prod.fst p := by
      intro p _
      by_cases hh : p.1 = k
      · rw [if_pos hh, hh]
      · rw [if_neg hh]
    have hord : ∀ p ∈ es,
        (fun q => q.2.order) (if p.1 = k then (k, MetaEntry.mk v e.order) else p)
          = (fun q => q.2.order) p := by
      intro p hp
      by_cases hh : p.1 = k
      · rw [if_pos hh]
        have := lookupEntry_unique es k e hkeys he p hp hh
        simp [this]
      · rw [if_neg hh]
    have hmapfst : List.map Prod.fst
        (es.map (fun p => if p.1 = k then (k, MetaEntry.mk v e.order) else p))
          = List.map Prod.fst es := by
      rw [List.map_map]
      exact List.map_congr_left (fun p hp => hfst p hp)
    have hmapord : List.map (fun q => q.2.order)
        (es.map (fun p => if p.1 = k then (k, MetaEntry.mk v e.order) else p))
          = List.map (fun q => q.2.order) es := by
      rw [List.map_map]
      exact List.map_congr_left (fun p hp => hord p hp)
    rw [hset]
    refine ⟨?_, ?_, ?_⟩
    · rw [hmapfst]
      exact hkeys
    · rw [hmapord]
      exact hwf.1
    · intro p hp
      rw [List.length_map]
      obtain ⟨q, hq, hqp⟩ := List.mem_map.mp hp
      rw [← hqp]
      have h2 := hord q hq
      simp only at h2
      rw [h2]
      exact hwf.2 q hq

theorem WF_foldl_set (ps : List (String × Value)) (es : Entries)
    (hkeys : (es.map Prod.fst).Nodup) (hwf : Meta.WF es) :
    Meta.WF (ps.foldl (fun es2 p => Meta.set es2 p.1 p.2) es) := by
  induction ps generalizing es with
  | nil => exact hwf
  | cons q ps ih =>
    rw [List.foldl_cons]
    have hstep := WF_set es q.1 q.2 hkeys hwf
    exact ih (Meta.set es q.1 q.2) hstep.1 hstep.2

/-- Every metadata store reachable through the logger API — a fold of
`set` calls over the empty store — satisfies the order-number
well-formedness assumed by the prefix-composition theorems. -/
theorem WF_mkMeta (ps : List (String × Value)) : Meta.WF (mkMeta ps) :=
  WF_foldl_set ps [] (by simp) ⟨by simp, by simp⟩
